import Mathlib

/- Verification of the Householder QR reduction (householderQR.cpp).

   The core routine householder(a, v, m, n) computes n reflection vectors
   v_0, ..., v_{n-1} and overwrites the columns of the m-by-n matrix A
   (stored column major, a[j][i] is row i of column j) with the factor R.
   We embed the routine over exact real arithmetic: a column is a function
   from row indices to reals, a column collection is a function from column
   indices to columns.  A second, bounds-checked embedding over lists is
   given further down for the access-safety analysis. -/

noncomputable section

abbrev Vec := ℕ → ℝ

abbrev Mat := ℕ → Vec

/-- Modelled from the spec: partialCopy(src, dst, len, offset) copies
src[offset .. offset+len) into dst[0 .. len); cells of dst at index len and
beyond keep their previous contents.  Functional form returning the new dst. -/
def partialvec_copy (src dst : Vec) (len off : ℕ) : Vec :=
  fun k => if k < len then src (off + k) else dst k

/-- Modelled from the spec: partialDot(u, w, len, skip) is the sum of
u[k] * w[k] for k in [skip, len). -/
def partialdot_product (u w : Vec) (len skip : ℕ) : ℝ :=
  ∑ k ∈ Finset.Ico skip len, u k * w k

/-- Modelled from the spec: subDot(u, v, len, offset) is the sum of
u[offset+k] * v[k] for k in [0, len). -/
def subdot_product (u v : Vec) (len off : ℕ) : ℝ :=
  ∑ k ∈ Finset.range len, u (off + k) * v k

/-- Modelled from the spec: scalarDivide(v, scalar, len, out) writes
v[k] / scalar into out[k] for k in [0, len).  The core calls it with out
aliased to v, so the functional form returns the updated v. -/
def scalar_div (v : Vec) (s : ℝ) (len : ℕ) : Vec :=
  fun k => if k < len then v k / s else v k

/-- Modelled from the spec: partialScaledSubtract(v, coef, len, offset, inout)
performs inout[offset+k] -= coef * v[k] for k in [0, len).  Functional form
returning the new inout. -/
def partialscalar_sub (v : Vec) (c : ℝ) (len off : ℕ) (io : Vec) : Vec :=
  fun r => if off ≤ r ∧ r < off + len then io r - c * v (r - off) else io r

/-- Modelled from the spec: dot(u, v, len) is the full-length inner product
(used only by the driver). -/
def dot_product (u v : Vec) (len : ℕ) : ℝ :=
  ∑ k ∈ Finset.range len, u k * v k

/-- Spec-side definition of the sign convention used to state the claims:
sign x is -1 for x < 0 and +1 otherwise (zero counts as positive). -/
def sgn (x : ℝ) : ℝ := if x < 0 then -1 else 1

/-- Update of the first entry of the reflection vector, from source lines
45-50: if v[i][0] < 0 subtract sqrt(v[i][0]^2 + vpartdot), else add it. -/
def updateFirst (x t : ℝ) : ℝ :=
  if x < 0 then x - Real.sqrt (x * x + t) else x + Real.sqrt (x * x + t)

/-- Source line 36: v[i] set to the subvector a[i][i : m]. The state s packs
the column collection a (s.1) and the reflection vectors v (s.2). -/
def hhVi0 (m i : ℕ) (s : Mat × Mat) : Vec :=
  partialvec_copy (s.1 i) (s.2 i) (m - i) i

/-- Source line 42: vpartdot, the squared norm of v[i] without its first
entry. -/
def hhVpartdot (m i : ℕ) (s : Mat × Mat) : ℝ :=
  partialdot_product (hhVi0 m i s) (hhVi0 m i s) (m - i) 1

/-- The norm of the copied subvector, sqrt(v[i][0]^2 + vpartdot), as it
appears inside the update of v[i][0] at source lines 46 and 49. -/
def hhNu (m i : ℕ) (s : Mat × Mat) : ℝ :=
  Real.sqrt (hhVi0 m i s 0 * hhVi0 m i s 0 + hhVpartdot m i s)

/-- Source lines 45-50: v[i] after its first entry is updated. -/
def hhVi1 (m i : ℕ) (s : Mat × Mat) : Vec :=
  fun k => if k = 0 then updateFirst (hhVi0 m i s 0) (hhVpartdot m i s)
           else hhVi0 m i s k

/-- Source line 53: vnorm recomputed from the updated first entry. -/
def hhVnorm (m i : ℕ) (s : Mat × Mat) : ℝ :=
  Real.sqrt (hhVi1 m i s 0 * hhVi1 m i s 0 + hhVpartdot m i s)

/-- Source line 54: v[i] normalized by vnorm. -/
def hhVi2 (m i : ℕ) (s : Mat × Mat) : Vec :=
  scalar_div (hhVi1 m i s) (hhVnorm m i s) (m - i)

/-- Source lines 58-60, the body of the inner loop for one column j:
vTa = subdot_product(a[j], v[i], m - i, i); vTa *= 2;
partialscalar_sub(v[i], vTa, m - i, i, a[j]). -/
def reflectCol (vi : Vec) (m i : ℕ) (col : Vec) : Vec :=
  partialscalar_sub vi (2 * subdot_product col vi (m - i) i) (m - i) i col

/-- Source lines 56-61: the inner loop reflects every column j with
i <= j < n.  Each pass of the loop reads only v[i] and its own column a[j]
and writes only a[j], so the loop is modelled pointwise per column. -/
def applyInner (vi : Vec) (m i n : ℕ) (A : Mat) : Mat :=
  fun j => if i ≤ j ∧ j < n then reflectCol vi m i (A j) else A j

/-- One pass of the outer loop (source lines 34-61) at index i. -/
def hhStep (m n i : ℕ) (s : Mat × Mat) : Mat × Mat :=
  (applyInner (hhVi2 m i s) m i n s.1,
   fun j => if j = i then hhVi2 m i s else s.2 j)

/-- The first p passes of the outer loop. -/
def hhRun (m n : ℕ) (s : Mat × Mat) : ℕ → Mat × Mat
  | 0 => s
  | p + 1 => hhStep m n p (hhRun m n s p)

/-- The full routine householder(a, v, m, n): n passes of the outer loop.
The first component of the result holds R (overwriting a), the second holds
the reflection vectors. -/
def householder (a v : Mat) (m n : ℕ) : Mat × Mat :=
  hhRun m n (a, v) n

/-- The active subcolumn a[i][i : m] at the start of outer pass i. -/
def activeCol (a v : Mat) (m n i : ℕ) : Vec :=
  fun k => (hhRun m n (a, v) i).1 i (i + k)

/-- The active subcolumn at pass i has a nonzero entry (the input is not
degenerate at step i). -/
def ActiveNonzero (a v : Mat) (m n i : ℕ) : Prop :=
  ∃ k, k < m - i ∧ activeCol a v m n i k ≠ 0

/-- Q applied to a column: applySeq vs m p c composes the reflectors
H_0 H_1 ... H_{p-1} built from the vectors vs, applying H_{p-1} first, so
that applySeq vs m n c is Q c with Q = H_0 H_1 ... H_{n-1}.  Each reflector
application is the same windowed operation reflectCol the core uses. -/
def applySeq (vs : Mat) (m : ℕ) : ℕ → Vec → Vec
  | 0, c => c
  | p + 1, c => applySeq vs m p (reflectCol (vs p) m p c)

/-- Source lines 76-81: the driver rejects the entered dimensions exactly
when m < n (the scanned values are C ints, so the model uses integers). -/
def driverRejects (m n : ℤ) : Bool := m < n

/-- Concrete 2 by 2 input used by the witnesses: columns (0, 1) and (1, 0). -/
def wA : Mat := fun j i =>
  if j = 0 ∧ i = 1 then 1 else if j = 1 ∧ i = 0 then 1 else 0

/-- Concrete reflection-vector storage for the witnesses, initially zero. -/
def wV : Mat := fun _ _ => 0

/-- Concrete 1 by 1 input of scenario 2: A = [[5]]. -/
def c8A : Mat := fun j i => if j = 0 ∧ i = 0 then 5 else 0

/-- Concrete 3 by 2 degenerate input of scenario 4: column 0 is identically
zero, column 1 is (1, 1, 1). -/
def zA : Mat := fun j i => if j = 1 ∧ i < 3 then 1 else 0

/- Bounds-checked embedding.  Columns and reflection vectors are lists of
their actual allocated cells; every read performed by the routine (and by
the primitives at the lengths and offsets the routine passes) is a checked
list access, and every primitive refuses (returns none) when any of the
cells it touches would lie outside the list it is given.  The writes of the
primitives target exactly the cells spelled out in their contracts, so a
write is in range whenever the corresponding guard holds. -/

/-- Modelled from the spec: checked partialCopy.  It touches src[off .. off+len)
and dst[0 .. len) and fails if either range leaves its list. -/
def partialvec_copyC (src dst : List ℝ) (len off : ℕ) : Option (List ℝ) :=
  if off + len ≤ src.length ∧ len ≤ dst.length then
    some ((src.drop off).take len ++ dst.drop len)
  else none

/-- Modelled from the spec: checked partialDot.  It reads u[k] and w[k] for
k in [skip, len) and fails if [0, len) leaves either list. -/
def partialdot_productC (u w : List ℝ) (len skip : ℕ) : Option ℝ :=
  if len ≤ u.length ∧ len ≤ w.length then
    some (∑ k ∈ Finset.Ico skip len, u.getD k 0 * w.getD k 0)
  else none

/-- Modelled from the spec: checked subDot.  It reads u[off+k] and v[k] for
k in [0, len). -/
def subdot_productC (u v : List ℝ) (len off : ℕ) : Option ℝ :=
  if off + len ≤ u.length ∧ len ≤ v.length then
    some (∑ k ∈ Finset.range len, u.getD (off + k) 0 * v.getD k 0)
  else none

/-- Modelled from the spec: checked scalarDivide with out aliased to v, as
the core calls it.  It touches v[0 .. len). -/
def scalar_divC (v : List ℝ) (s : ℝ) (len : ℕ) : Option (List ℝ) :=
  if len ≤ v.length then some ((v.take len).map (fun x => x / s) ++ v.drop len)
  else none

/-- Modelled from the spec: checked partialScaledSubtract.  It reads v[0 .. len)
and reads and writes io[off .. off+len). -/
def partialscalar_subC (v : List ℝ) (c : ℝ) (len off : ℕ) (io : List ℝ) :
    Option (List ℝ) :=
  if len ≤ v.length ∧ off + len ≤ io.length then
    some (io.take off ++
      List.zipWith (fun x y => x - c * y) ((io.drop off).take len) (v.take len) ++
      io.drop (off + len))
  else none

/-- Checked inner loop (source lines 56-61) over the listed column indices:
reads the column pointer a[j], reflects the column, stores it back. -/
def innerLoopC (vi : List ℝ) (m i : ℕ) (a : List (List ℝ)) :
    List ℕ → Option (List (List ℝ))
  | [] => some a
  | j :: js => do
    let colj ← a.get? j
    let vTa ← subdot_productC colj vi (m - i) i
    let colj2 ← partialscalar_subC vi (2 * vTa) (m - i) i colj
    innerLoopC vi m i (a.set j colj2) js

/-- Checked outer pass i (source lines 34-61).  The reads a[i], v[i] and
v[i][0] are checked; the single write v[i][0] hits the cell the preceding
read just checked, and the store of the normalized vector keeps the length
of v[i]. -/
def hhStepC (m n i : ℕ) (a v : List (List ℝ)) :
    Option (List (List ℝ) × List (List ℝ)) := do
  let coli ← a.get? i
  let vicur ← v.get? i
  let vi0 ← partialvec_copyC coli vicur (m - i) i
  let t ← partialdot_productC vi0 vi0 (m - i) 1
  let x0 ← vi0.get? 0
  let vi1 := vi0.set 0 (updateFirst x0 t)
  let y0 ← vi1.get? 0
  let vi2 ← scalar_divC vi1 (Real.sqrt (y0 * y0 + t)) (m - i)
  let a2 ← innerLoopC vi2 m i a (List.range' i (n - i))
  some (a2, v.set i vi2)

/-- Checked outer loop over the listed pass indices. -/
def outerLoopC (m n : ℕ) :
    List ℕ → List (List ℝ) × List (List ℝ) → Option (List (List ℝ) × List (List ℝ))
  | [], s => some s
  | i :: is, s => do
    let s2 ← hhStepC m n i s.1 s.2
    outerLoopC m n is s2

/-- Checked embedding of householder(a, v, m, n): passes i = 0, ..., n-1. -/
def householderC (a v : List (List ℝ)) (m n : ℕ) :
    Option (List (List ℝ) × List (List ℝ)) :=
  outerLoopC m n (List.range n) (a, v)

/-- Every stored column has at least m cells. -/
def ColsOK (m : ℕ) (a : List (List ℝ)) : Prop :=
  ∀ j col, a.get? j = some col → m ≤ col.length

/-- The storage for reflection vector i has at least m - i cells. -/
def CapOK (m : ℕ) (v : List (List ℝ)) : Prop :=
  ∀ i col, v.get? i = some col → m - i ≤ col.length

/-- Concrete checked input for the witness: a = [[5]], v = [[0]]. -/
def c9A : List (List ℝ) := [[5]]

/-- Concrete checked reflection storage for the witness. -/
def c9V : List (List ℝ) := [[0]]

end

lemma sgn_mul_self (x : ℝ) : sgn x * x = |x| := by
  unfold sgn
  by_cases h : x < 0
  · rw [if_pos h, abs_of_neg h]; ring
  · rw [if_neg h, abs_of_nonneg (not_lt.mp h)]; ring

lemma sgn_sq (x : ℝ) : sgn x * sgn x = 1 := by
  unfold sgn; by_cases h : x < 0 <;> simp [h]

lemma updateFirst_eq (x t : ℝ) :
    updateFirst x t = x + sgn x * Real.sqrt (x * x + t) := by
  unfold updateFirst sgn
  by_cases h : x < 0
  · rw [if_pos h, if_pos h]; ring
  · rw [if_neg h, if_neg h]; ring

/-- C5: at every step i of householder, after copying the active subcolumn
into v_i and computing vpartdot over its tail, the first entry is updated to
v_i[0] + sign(v_i[0]) * sqrt(v_i[0]^2 + vpartdot), where sign x is -1 for
x < 0 and +1 otherwise; in particular a negative first entry has the norm
subtracted and a nonnegative one (zero included) has it added. -/
theorem C5_update_first :
    (∀ (m i : ℕ) (s : Mat × Mat),
        hhVi1 m i s 0 = hhVi0 m i s 0 + sgn (hhVi0 m i s 0) *
          Real.sqrt (hhVi0 m i s 0 * hhVi0 m i s 0 + hhVpartdot m i s)) ∧
    (∀ x : ℝ, x < 0 → sgn x = -1) ∧ (∀ x : ℝ, 0 ≤ x → sgn x = 1) := by
  refine ⟨fun m i s => ?_, fun x hx => by simp [sgn, hx], fun x hx => ?_⟩
  · show updateFirst (hhVi0 m i s 0) (hhVpartdot m i s) = _
    exact updateFirst_eq _ _
  · simp [sgn, not_lt.mpr hx]

/-- Witness for C5 at concrete inputs. -/
theorem C5_witness :
    hhVi1 2 0 (wA, wV) 0 = hhVi0 2 0 (wA, wV) 0 + sgn (hhVi0 2 0 (wA, wV) 0) *
        Real.sqrt (hhVi0 2 0 (wA, wV) 0 * hhVi0 2 0 (wA, wV) 0 +
          hhVpartdot 2 0 (wA, wV)) ∧
      sgn (-1) = -1 ∧ sgn 0 = 1 :=
  ⟨C5_update_first.1 2 0 (wA, wV),
   C5_update_first.2.1 (-1) (by norm_num),
   C5_update_first.2.2 0 (by norm_num)⟩

/-- C7 counterexample: the entered pair m = 0, n = 0 is non-positive in both
components, yet the driver does not reject it, so it is not detected before
the core is invoked. -/
theorem C7_counterexample : ((0:ℤ) ≤ 0 ∧ (0:ℤ) ≤ 0) ∧
    driverRejects 0 0 = false := by
  exact ⟨⟨le_refl 0, le_refl 0⟩, by simp [driverRejects]⟩

/-- C7 (amended): the driver detects exactly the dimension pairs with m < n
before invoking the core; non-positive m or n with n <= m is not detected,
and the core performs no dimension check of its own. -/
theorem C7_reject_iff (m n : ℤ) : driverRejects m n = true ↔ m < n := by
  simp [driverRejects]

lemma vi0_window (m i : ℕ) (s : Mat × Mat) (k : ℕ) (hk : k < m - i) :
    hhVi0 m i s k = s.1 i (i + k) := by
  simp [hhVi0, partialvec_copy, hk]

lemma vpartdot_eq_sum (m i : ℕ) (s : Mat × Mat) :
    hhVpartdot m i s
      = ∑ k ∈ Finset.Ico 1 (m - i), s.1 i (i + k) * s.1 i (i + k) := by
  unfold hhVpartdot partialdot_product
  refine Finset.sum_congr rfl fun k hk => ?_
  rw [Finset.mem_Ico] at hk
  rw [vi0_window m i s k hk.2]

lemma vpartdot_nonneg (m i : ℕ) (s : Mat × Mat) : 0 ≤ hhVpartdot m i s := by
  unfold hhVpartdot partialdot_product
  exact Finset.sum_nonneg fun k _ => mul_self_nonneg _

lemma sum_head_split (f : ℕ → ℝ) (L : ℕ) (hL : 1 ≤ L) :
    ∑ k ∈ Finset.range L, f k = f 0 + ∑ k ∈ Finset.Ico 1 L, f k := by
  rw [Finset.range_eq_Ico, ← Finset.sum_Ico_consecutive f (Nat.zero_le 1) hL]
  congr 1
  rw [show Finset.Ico 0 1 = Finset.range 1 from
    congrFun (Finset.range_eq_Ico).symm 1, Finset.sum_range_one]

lemma sumsq_pos (x : Vec) (L : ℕ) (h : ∃ k, k < L ∧ x k ≠ 0) :
    0 < ∑ k ∈ Finset.range L, x k * x k := by
  obtain ⟨k, hk, hx⟩ := h
  refine Finset.sum_pos' (fun j _ => mul_self_nonneg _)
    ⟨k, Finset.mem_range.mpr hk, ?_⟩
  exact mul_self_pos.mpr hx

lemma hpos_of_nonzero (m i : ℕ) (s : Mat × Mat) (him : i < m)
    (h : ∃ k, k < m - i ∧ s.1 i (i + k) ≠ 0) :
    0 < hhVi0 m i s 0 * hhVi0 m i s 0 + hhVpartdot m i s := by
  have hL : 1 ≤ m - i := by omega
  have e : hhVi0 m i s 0 * hhVi0 m i s 0 + hhVpartdot m i s
      = ∑ k ∈ Finset.range (m - i), s.1 i (i + k) * s.1 i (i + k) := by
    rw [sum_head_split (fun k => s.1 i (i + k) * s.1 i (i + k)) _ hL,
      vi0_window m i s 0 hL, vpartdot_eq_sum]
  rw [e]
  exact sumsq_pos _ _ h

lemma nu_nonneg (m i : ℕ) (s : Mat × Mat) : 0 ≤ hhNu m i s := Real.sqrt_nonneg _

lemma nu_pos (m i : ℕ) (s : Mat × Mat)
    (hpos : 0 < hhVi0 m i s 0 * hhVi0 m i s 0 + hhVpartdot m i s) :
    0 < hhNu m i s := Real.sqrt_pos.mpr hpos

lemma nu_mul_self (m i : ℕ) (s : Mat × Mat) :
    hhNu m i s * hhNu m i s
      = hhVi0 m i s 0 * hhVi0 m i s 0 + hhVpartdot m i s :=
  Real.mul_self_sqrt (add_nonneg (mul_self_nonneg _) (vpartdot_nonneg m i s))

lemma vi1_zero_eq (m i : ℕ) (s : Mat × Mat) :
    hhVi1 m i s 0 = hhVi0 m i s 0 + sgn (hhVi0 m i s 0) * hhNu m i s := by
  show (if (0:ℕ) = 0 then updateFirst (hhVi0 m i s 0) (hhVpartdot m i s)
    else hhVi0 m i s 0) = _
  rw [if_pos rfl, updateFirst_eq]
  rfl

lemma vi1_tail_eq (m i : ℕ) (s : Mat × Mat) (k : ℕ) (hk : k ≠ 0) :
    hhVi1 m i s k = hhVi0 m i s k := by
  simp [hhVi1, hk]

lemma vi1_sq_add (m i : ℕ) (s : Mat × Mat) :
    hhVi1 m i s 0 * hhVi1 m i s 0 + hhVpartdot m i s
      = 2 * (hhNu m i s * (hhNu m i s + |hhVi0 m i s 0|)) := by
  have h1 := sgn_sq (hhVi0 m i s 0)
  have h2 := sgn_mul_self (hhVi0 m i s 0)
  have h3 := nu_mul_self m i s
  rw [vi1_zero_eq]
  linear_combination (hhNu m i s * hhNu m i s) * h1 + (2 * hhNu m i s) * h2 - h3

lemma vnorm_mul_self (m i : ℕ) (s : Mat × Mat) :
    hhVnorm m i s * hhVnorm m i s
      = hhVi1 m i s 0 * hhVi1 m i s 0 + hhVpartdot m i s := by
  apply Real.mul_self_sqrt
  rw [vi1_sq_add]
  have h1 := nu_nonneg m i s
  have h2 := abs_nonneg (hhVi0 m i s 0)
  nlinarith

lemma vnorm_pos (m i : ℕ) (s : Mat × Mat)
    (hpos : 0 < hhVi0 m i s 0 * hhVi0 m i s 0 + hhVpartdot m i s) :
    0 < hhVnorm m i s := by
  apply Real.sqrt_pos.mpr
  rw [vi1_sq_add]
  have h1 := nu_pos m i s hpos
  have h2 := abs_nonneg (hhVi0 m i s 0)
  nlinarith

lemma sum_vi1_sq (m i : ℕ) (s : Mat × Mat) (him : i < m) :
    ∑ k ∈ Finset.range (m - i), hhVi1 m i s k * hhVi1 m i s k
      = hhVi1 m i s 0 * hhVi1 m i s 0 + hhVpartdot m i s := by
  have hL : 1 ≤ m - i := by omega
  rw [sum_head_split (fun k => hhVi1 m i s k * hhVi1 m i s k) _ hL]
  congr 1
  show _ = partialdot_product (hhVi0 m i s) (hhVi0 m i s) (m - i) 1
  unfold partialdot_product
  refine Finset.sum_congr rfl fun k hk => ?_
  rw [Finset.mem_Ico] at hk
  rw [vi1_tail_eq m i s k (by omega)]

lemma sum_vi2_sq (m i : ℕ) (s : Mat × Mat) (him : i < m)
    (hpos : 0 < hhVi0 m i s 0 * hhVi0 m i s 0 + hhVpartdot m i s) :
    ∑ k ∈ Finset.range (m - i), hhVi2 m i s k * hhVi2 m i s k = 1 := by
  have hN := vnorm_pos m i s hpos
  have hNN : hhVnorm m i s * hhVnorm m i s ≠ 0 :=
    mul_ne_zero (ne_of_gt hN) (ne_of_gt hN)
  have e : ∀ k ∈ Finset.range (m - i), hhVi2 m i s k * hhVi2 m i s k
      = hhVi1 m i s k * hhVi1 m i s k / (hhVnorm m i s * hhVnorm m i s) := by
    intro k hk
    rw [Finset.mem_range] at hk
    simp only [hhVi2, scalar_div, if_pos hk]
    rw [div_mul_div_comm]
  rw [Finset.sum_congr rfl e, ← Finset.sum_div, sum_vi1_sq m i s him,
    ← vnorm_mul_self m i s, div_self hNN]

lemma dot_pivot (m i : ℕ) (s : Mat × Mat) (him : i < m)
    (hpos : 0 < hhVi0 m i s 0 * hhVi0 m i s 0 + hhVpartdot m i s) :
    subdot_product (s.1 i) (hhVi2 m i s) (m - i) i = hhVnorm m i s / 2 := by
  have hL : 1 ≤ m - i := by omega
  have hNne : hhVnorm m i s ≠ 0 := ne_of_gt (vnorm_pos m i s hpos)
  have e1 : subdot_product (s.1 i) (hhVi2 m i s) (m - i) i
      = (∑ k ∈ Finset.range (m - i), hhVi0 m i s k * hhVi1 m i s k)
          / hhVnorm m i s := by
    unfold subdot_product
    rw [Finset.sum_div]
    refine Finset.sum_congr rfl fun k hk => ?_
    rw [Finset.mem_range] at hk
    rw [← vi0_window m i s k hk]
    simp only [hhVi2, scalar_div, if_pos hk]
    rw [mul_div_assoc]
  have e2 : ∑ k ∈ Finset.range (m - i), hhVi0 m i s k * hhVi1 m i s k
      = hhVnorm m i s * hhVnorm m i s / 2 := by
    rw [sum_head_split (fun k => hhVi0 m i s k * hhVi1 m i s k) _ hL]
    have etail : ∑ k ∈ Finset.Ico 1 (m - i), hhVi0 m i s k * hhVi1 m i s k
        = hhVpartdot m i s := by
      show _ = partialdot_product (hhVi0 m i s) (hhVi0 m i s) (m - i) 1
      unfold partialdot_product
      refine Finset.sum_congr rfl fun k hk => ?_
      rw [Finset.mem_Ico] at hk
      rw [vi1_tail_eq m i s k (by omega)]
    rw [etail, vnorm_mul_self m i s, vi1_zero_eq]
    have h1 := sgn_sq (hhVi0 m i s 0)
    have h3 := nu_mul_self m i s
    linear_combination (-(hhNu m i s * hhNu m i s) / 2) * h1 - (1 / 2) * h3
  rw [e1, e2]
  field_simp
  ring

lemma vi2_window (m i : ℕ) (s : Mat × Mat) (k : ℕ) (hk : k < m - i) :
    hhVi2 m i s k = hhVi1 m i s k / hhVnorm m i s := by
  simp only [hhVi2, scalar_div, if_pos hk]

lemma reflect_pivot (m i : ℕ) (s : Mat × Mat) (him : i < m)
    (hpos : 0 < hhVi0 m i s 0 * hhVi0 m i s 0 + hhVpartdot m i s) :
    ∀ k, k < m - i →
      reflectCol (hhVi2 m i s) m i (s.1 i) (i + k)
        = if k = 0 then -(sgn (s.1 i i)) * hhNu m i s else 0 := by
  intro k hk
  have hNne : hhVnorm m i s ≠ 0 := ne_of_gt (vnorm_pos m i s hpos)
  have hwin : i ≤ i + k ∧ i + k < i + (m - i) := ⟨Nat.le_add_right _ _, by omega⟩
  unfold reflectCol partialscalar_sub
  rw [if_pos hwin, dot_pivot m i s him hpos]
  rw [show i + k - i = k from by omega]
  rw [vi2_window m i s k hk]
  rw [show 2 * (hhVnorm m i s / 2) * (hhVi1 m i s k / hhVnorm m i s)
      = hhVi1 m i s k * (hhVnorm m i s / hhVnorm m i s) from by ring,
    div_self hNne, mul_one]
  by_cases hk0 : k = 0
  · subst hk0
    rw [if_pos rfl, vi1_zero_eq]
    have h0 : hhVi0 m i s 0 = s.1 i i := by
      have h := vi0_window m i s 0 (by omega)
      rw [Nat.add_zero] at h
      exact h
    rw [Nat.add_zero, h0]
    ring
  · rw [if_neg hk0, vi1_tail_eq m i s k hk0, vi0_window m i s k hk]
    ring

lemma hhStep_fst_window (m n i j : ℕ) (s : Mat × Mat)
    (hij : i ≤ j) (hjn : j < n) :
    (hhStep m n i s).1 j = reflectCol (hhVi2 m i s) m i (s.1 j) := by
  simp [hhStep, applyInner, hij, hjn]

lemma hhStep_fst_frame (m n i j : ℕ) (s : Mat × Mat) (h : j < i ∨ n ≤ j) :
    (hhStep m n i s).1 j = s.1 j := by
  have hc : ¬ (i ≤ j ∧ j < n) := by omega
  simp [hhStep, applyInner, hc]

lemma hhStep_fst_row_frame (m n i j r : ℕ) (s : Mat × Mat)
    (h : r < i ∨ m ≤ r) :
    (hhStep m n i s).1 j r = s.1 j r := by
  by_cases hj : i ≤ j ∧ j < n
  · rw [hhStep_fst_window m n i j s hj.1 hj.2]
    unfold reflectCol partialscalar_sub
    have hc : ¬ (i ≤ r ∧ r < i + (m - i)) := by omega
    rw [if_neg hc]
  · rw [hhStep_fst_frame m n i j s (by omega)]

lemma hhStep_snd_frame (m n i j : ℕ) (s : Mat × Mat) (h : j ≠ i) :
    (hhStep m n i s).2 j = s.2 j := by
  simp [hhStep, h]

lemma hhStep_snd_set (m n i : ℕ) (s : Mat × Mat) :
    (hhStep m n i s).2 i = hhVi2 m i s := by
  simp [hhStep]

lemma hhRun_fst_fixed (m n : ℕ) (s : Mat × Mat) (j p q : ℕ)
    (hjp : j < p) (hpq : p ≤ q) :
    (hhRun m n s q).1 j = (hhRun m n s p).1 j := by
  induction q, hpq using Nat.le_induction with
  | base => rfl
  | succ q hq ih =>
    have e : (hhRun m n s (q + 1)).1 j = (hhRun m n s q).1 j := by
      show (hhStep m n q (hhRun m n s q)).1 j = _
      exact hhStep_fst_frame m n q j _ (Or.inl (by omega))
    rw [e, ih]

lemma hhRun_snd_fixed (m n : ℕ) (s : Mat × Mat) (j p q : ℕ)
    (hjp : j < p) (hpq : p ≤ q) :
    (hhRun m n s q).2 j = (hhRun m n s p).2 j := by
  induction q, hpq using Nat.le_induction with
  | base => rfl
  | succ q hq ih =>
    have e : (hhRun m n s (q + 1)).2 j = (hhRun m n s q).2 j := by
      show (hhStep m n q (hhRun m n s q)).2 j = _
      exact hhStep_snd_frame m n q j _ (by omega)
    rw [e, ih]

lemma householder_snd_eq (a v : Mat) (m n i : ℕ) (hi : i < n) :
    (householder a v m n).2 i = hhVi2 m i (hhRun m n (a, v) i) := by
  show (hhRun m n (a, v) n).2 i = _
  rw [hhRun_snd_fixed m n (a, v) i (i + 1) n (by omega) (by omega)]
  show (hhStep m n i (hhRun m n (a, v) i)).2 i = _
  exact hhStep_snd_set m n i _

lemma householder_fst_col (a v : Mat) (m n j : ℕ) (hj : j < n) :
    (householder a v m n).1 j
      = reflectCol (hhVi2 m j (hhRun m n (a, v) j)) m j
          ((hhRun m n (a, v) j).1 j) := by
  show (hhRun m n (a, v) n).1 j = _
  rw [hhRun_fst_fixed m n (a, v) j (j + 1) n (by omega) (by omega)]
  show (hhStep m n j (hhRun m n (a, v) j)).1 j = _
  exact hhStep_fst_window m n j j _ (le_refl j) hj

lemma active_hpos (a v : Mat) (m n i : ℕ) (him : i < m)
    (hnd : ActiveNonzero a v m n i) :
    0 < hhVi0 m i (hhRun m n (a, v) i) 0 * hhVi0 m i (hhRun m n (a, v) i) 0
        + hhVpartdot m i (hhRun m n (a, v) i) := by
  obtain ⟨k, hk, hx⟩ := hnd
  exact hpos_of_nonzero m i _ him ⟨k, hk, hx⟩

lemma triangular_strong (a v : Mat) (m n : ℕ) (hnm : n ≤ m)
    (hnd : ∀ i, i < n → ActiveNonzero a v m n i) :
    ∀ j r, j < n → j < r → r < m → (householder a v m n).1 j r = 0 := by
  intro j r hjn hjr hrm
  have hjm : j < m := lt_of_lt_of_le hjn hnm
  rw [householder_fst_col a v m n j hjn]
  have hpos := active_hpos a v m n j hjm (hnd j hjn)
  have hk : r - j < m - j := by omega
  have e := reflect_pivot m j (hhRun m n (a, v) j) hjm hpos (r - j) hk
  rw [show j + (r - j) = r from by omega] at e
  rw [e, if_neg (by omega : ¬ r - j = 0)]

lemma diag_value (a v : Mat) (m n i : ℕ) (hnm : n ≤ m) (hi : i < n)
    (hnd : ActiveNonzero a v m n i) :
    (householder a v m n).1 i i
      = -(sgn ((hhRun m n (a, v) i).1 i i)) * hhNu m i (hhRun m n (a, v) i) := by
  have him : i < m := lt_of_lt_of_le hi hnm
  rw [householder_fst_col a v m n i hi]
  have hpos := active_hpos a v m n i him hnd
  have e := reflect_pivot m i (hhRun m n (a, v) i) him hpos 0 (by omega)
  rw [Nat.add_zero] at e
  rw [e, if_pos rfl]

lemma nu_eq_norm (a v : Mat) (m n i : ℕ) (him : i < m) :
    hhNu m i (hhRun m n (a, v) i)
      = Real.sqrt (∑ k ∈ Finset.range (m - i), activeCol a v m n i k ^ 2) := by
  unfold hhNu
  congr 1
  rw [sum_head_split (fun k => activeCol a v m n i k ^ 2) _ (by omega)]
  rw [vi0_window m i _ 0 (by omega), vpartdot_eq_sum]
  congr 1
  · show (hhRun m n (a, v) i).1 i (i + 0) * (hhRun m n (a, v) i).1 i (i + 0)
      = activeCol a v m n i 0 ^ 2
    show activeCol a v m n i 0 * activeCol a v m n i 0 = activeCol a v m n i 0 ^ 2
    ring
  · refine Finset.sum_congr rfl fun k hk => ?_
    show activeCol a v m n i k * activeCol a v m n i k = activeCol a v m n i k ^ 2
    ring

/-- C1: for a matrix with 1 <= n <= m columns and no degenerate active
subcolumn, after householder(a, v, m, n) the stored result is upper
triangular: every entry a[j][r] with row index r above the column index j,
within the first n rows, is exactly zero in exact real arithmetic. -/
theorem C1_upper_triangular (a v : Mat) (m n : ℕ) (hn : 1 ≤ n) (hnm : n ≤ m)
    (hnd : ∀ i, i < n → ActiveNonzero a v m n i) :
    ∀ j r, j < n → r < n → j < r → (householder a v m n).1 j r = 0 := by
  intro j r hj hr hjr
  exact triangular_strong a v m n hnm hnd j r hj hjr (lt_of_lt_of_le hr hnm)

/-- C3: for a matrix with 1 <= n <= m and no degenerate active subcolumn,
every reflection vector v_i stored by householder has Euclidean norm
exactly 1 in exact real arithmetic. -/
theorem C3_unit_norm (a v : Mat) (m n : ℕ) (hn : 1 ≤ n) (hnm : n ≤ m)
    (hnd : ∀ i, i < n → ActiveNonzero a v m n i) :
    ∀ i, i < n →
      Real.sqrt (∑ k ∈ Finset.range (m - i), (householder a v m n).2 i k ^ 2)
        = 1 := by
  intro i hi
  have him : i < m := lt_of_lt_of_le hi hnm
  rw [householder_snd_eq a v m n i hi]
  have e : ∑ k ∈ Finset.range (m - i), hhVi2 m i (hhRun m n (a, v) i) k ^ 2
      = ∑ k ∈ Finset.range (m - i), hhVi2 m i (hhRun m n (a, v) i) k
          * hhVi2 m i (hhRun m n (a, v) i) k :=
    Finset.sum_congr rfl fun k _ => by ring
  rw [e, sum_vi2_sq m i (hhRun m n (a, v) i) him
    (active_hpos a v m n i him (hnd i hi)), Real.sqrt_one]

/-- C10: for every step i whose active subcolumn x is nonzero at the start
of the iteration (with n <= m), the final diagonal entry a[i][i] equals
-sign(x[0]) * norm x, with sign 0 = +1; in particular it is nonzero. -/
theorem C10_diagonal (a v : Mat) (m n : ℕ) (hnm : n ≤ m) (i : ℕ) (hi : i < n)
    (hnd : ActiveNonzero a v m n i) :
    (householder a v m n).1 i i
        = -(sgn (activeCol a v m n i 0))
            * Real.sqrt (∑ k ∈ Finset.range (m - i), activeCol a v m n i k ^ 2)
      ∧ (householder a v m n).1 i i ≠ 0 := by
  have him : i < m := lt_of_lt_of_le hi hnm
  have e1 := diag_value a v m n i hnm hi hnd
  have e2 := nu_eq_norm a v m n i him
  constructor
  · rw [e1, e2]
    rfl
  · rw [e1]
    have hν := nu_pos m i _ (active_hpos a v m n i him hnd)
    have hg : sgn ((hhRun m n (a, v) i).1 i i) ≠ 0 := by
      unfold sgn; split <;> norm_num
    intro hc
    rw [neg_mul, neg_eq_zero] at hc
    rcases mul_eq_zero.mp hc with h | h
    · exact hg h
    · exact (ne_of_gt hν) h

lemma subdot_partialscalar_sub (vi : Vec) (d : ℝ) (m i : ℕ) (c : Vec) :
    subdot_product (partialscalar_sub vi d (m - i) i c) vi (m - i) i
      = subdot_product c vi (m - i) i
        - d * (∑ k ∈ Finset.range (m - i), vi k * vi k) := by
  unfold subdot_product partialscalar_sub
  rw [Finset.mul_sum, ← Finset.sum_sub_distrib]
  refine Finset.sum_congr rfl fun k hk => ?_
  rw [Finset.mem_range] at hk
  have hc : i ≤ i + k ∧ i + k < i + (m - i) := ⟨Nat.le_add_right _ _, by omega⟩
  rw [if_pos hc, show i + k - i = k from by omega]
  ring

lemma reflect_involution (vi : Vec) (m i : ℕ)
    (hunit : ∑ k ∈ Finset.range (m - i), vi k * vi k = 1) (c : Vec) :
    reflectCol vi m i (reflectCol vi m i c) = c := by
  funext r
  have hd : subdot_product (reflectCol vi m i c) vi (m - i) i
      = - subdot_product c vi (m - i) i := by
    show subdot_product
      (partialscalar_sub vi (2 * subdot_product c vi (m - i) i) (m - i) i c)
      vi (m - i) i = _
    rw [subdot_partialscalar_sub, hunit]
    ring
  show partialscalar_sub vi
      (2 * subdot_product (reflectCol vi m i c) vi (m - i) i) (m - i) i
      (reflectCol vi m i c) r = c r
  rw [hd]
  by_cases hr : i ≤ r ∧ r < i + (m - i)
  · show (if i ≤ r ∧ r < i + (m - i) then
        reflectCol vi m i c r
          - 2 * -subdot_product c vi (m - i) i * vi (r - i)
      else reflectCol vi m i c r) = c r
    rw [if_pos hr]
    show (if i ≤ r ∧ r < i + (m - i) then
        c r - 2 * subdot_product c vi (m - i) i * vi (r - i)
      else c r) - 2 * -subdot_product c vi (m - i) i * vi (r - i) = c r
    rw [if_pos hr]
    ring
  · show (if i ≤ r ∧ r < i + (m - i) then
        reflectCol vi m i c r
          - 2 * -subdot_product c vi (m - i) i * vi (r - i)
      else reflectCol vi m i c r) = c r
    rw [if_neg hr]
    show (if i ≤ r ∧ r < i + (m - i) then
        c r - 2 * subdot_product c vi (m - i) i * vi (r - i)
      else c r) = c r
    rw [if_neg hr]

lemma reflectCol_id_of_window_zero (vi : Vec) (m i : ℕ) (c : Vec)
    (hz : ∀ k, k < m - i → c (i + k) = 0) :
    reflectCol vi m i c = c := by
  funext r
  have hd : subdot_product c vi (m - i) i = 0 := by
    unfold subdot_product
    refine Finset.sum_eq_zero fun k hk => ?_
    rw [Finset.mem_range] at hk
    rw [hz k hk, zero_mul]
  show (if i ≤ r ∧ r < i + (m - i) then
      c r - 2 * subdot_product c vi (m - i) i * vi (r - i)
    else c r) = c r
  rw [hd]
  by_cases hr : i ≤ r ∧ r < i + (m - i)
  · rw [if_pos hr]; ring
  · rw [if_neg hr]

lemma applySeq_hist (a v : Mat) (m n : ℕ) (hnm : n ≤ m)
    (hnd : ∀ i, i < n → ActiveNonzero a v m n i) (j : ℕ) (hjn : j < n) :
    ∀ p, p ≤ j + 1 →
      applySeq (householder a v m n).2 m p ((hhRun m n (a, v) p).1 j)
        = a j := by
  intro p
  induction p with
  | zero => intro _; rfl
  | succ p ih =>
    intro hp
    have hpj : p ≤ j := by omega
    have hpn : p < n := by omega
    have hpm : p < m := by omega
    have e1 : (hhRun m n (a, v) (p + 1)).1 j
        = reflectCol (hhVi2 m p (hhRun m n (a, v) p)) m p
            ((hhRun m n (a, v) p).1 j) := by
      show (hhStep m n p (hhRun m n (a, v) p)).1 j = _
      exact hhStep_fst_window m n p j _ hpj hjn
    have e2 : (householder a v m n).2 p = hhVi2 m p (hhRun m n (a, v) p) :=
      householder_snd_eq a v m n p hpn
    show applySeq (householder a v m n).2 m p
        (reflectCol ((householder a v m n).2 p) m p
          ((hhRun m n (a, v) (p + 1)).1 j)) = a j
    rw [e1, e2]
    rw [reflect_involution (hhVi2 m p (hhRun m n (a, v) p)) m p
      (sum_vi2_sq m p (hhRun m n (a, v) p) hpm
        (active_hpos a v m n p hpm (hnd p hpn)))
      ((hhRun m n (a, v) p).1 j)]
    exact ih (by omega)

lemma applySeq_pad (a v : Mat) (m n : ℕ) (hnm : n ≤ m)
    (hnd : ∀ i, i < n → ActiveNonzero a v m n i) (j : ℕ) (hjn : j < n) :
    ∀ q, j + 1 ≤ q → q ≤ n →
      applySeq (householder a v m n).2 m q ((householder a v m n).1 j)
        = applySeq (householder a v m n).2 m (j + 1)
            ((householder a v m n).1 j) := by
  intro q hq1
  induction q, hq1 using Nat.le_induction with
  | base => intro _; rfl
  | succ q hq ih =>
    intro hq2
    have e : reflectCol ((householder a v m n).2 q) m q
        ((householder a v m n).1 j) = (householder a v m n).1 j := by
      apply reflectCol_id_of_window_zero
      intro k hk
      exact triangular_strong a v m n hnm hnd j (q + k) hjn (by omega) (by omega)
    show applySeq (householder a v m n).2 m q
        (reflectCol ((householder a v m n).2 q) m q
          ((householder a v m n).1 j)) = _
    rw [e]
    exact ih (by omega)

/-- C2: for a matrix with 1 <= n <= m and no degenerate active subcolumn,
applying the n reflectors produced by householder, composed as
H_0 H_1 ... H_{n-1}, to the stored result R reconstructs the original
input A in exact real arithmetic. -/
theorem C2_reconstruction (a v : Mat) (m n : ℕ) (hn : 1 ≤ n) (hnm : n ≤ m)
    (hnd : ∀ i, i < n → ActiveNonzero a v m n i) :
    ∀ j, j < n → ∀ r, r < m →
      applySeq (householder a v m n).2 m n ((householder a v m n).1 j) r
        = a j r := by
  intro j hjn r hrm
  have e0 : (householder a v m n).1 j = (hhRun m n (a, v) (j + 1)).1 j :=
    hhRun_fst_fixed m n (a, v) j (j + 1) n (by omega) (by omega)
  have epad := applySeq_pad a v m n hnm hnd j hjn n (by omega) (le_refl n)
  have ehist := applySeq_hist a v m n hnm hnd j hjn (j + 1) (le_refl (j + 1))
  rw [epad, e0, ehist]

/-- C6: for every i, iteration i of the outer loop writes only to columns
j with j >= i and only to row positions i .. m-1 of those columns; as a
consequence, once iteration j completes, column a[j] is never modified by
any later iteration. -/
theorem C6_frame (m n : ℕ) :
    (∀ i (s : Mat × Mat) j r, j < i ∨ r < i ∨ m ≤ r →
        (hhStep m n i s).1 j r = s.1 j r) ∧
    (∀ (s : Mat × Mat) j p, j + 1 ≤ p →
        (hhRun m n s p).1 j = (hhRun m n s (j + 1)).1 j) := by
  constructor
  · intro i s j r h
    rcases h with h | h
    · rw [hhStep_fst_frame m n i j s (Or.inl h)]
    · exact hhStep_fst_row_frame m n i j r s h
  · intro s j p hp
    exact hhRun_fst_fixed m n s j (j + 1) p (by omega) hp

/-- Witness for C6 at a concrete input: iteration 1 leaves entry (0,0)
unchanged, and the run of both passes leaves column 0 as pass 1 left it. -/
theorem C6_witness :
    (hhStep 2 2 1 (wA, wV)).1 0 0 = wA 0 0 ∧
    (hhRun 2 2 (wA, wV) 2).1 0 = (hhRun 2 2 (wA, wV) 1).1 0 :=
  ⟨(C6_frame 2 2).1 1 (wA, wV) 0 0 (Or.inl (by norm_num)),
   (C6_frame 2 2).2 (wA, wV) 0 2 (by norm_num)⟩

lemma wvi0_0 : hhVi0 2 0 (wA, wV) 0 = 0 := by
  rw [vi0_window 2 0 (wA, wV) 0 (by norm_num)]
  show wA 0 (0 + 0) = 0
  simp [wA]

lemma wvpart : hhVpartdot 2 0 (wA, wV) = 1 := by
  rw [vpartdot_eq_sum]
  rw [show Finset.Ico 1 2 = {1} from by decide, Finset.sum_singleton]
  show wA 0 (0 + 1) * wA 0 (0 + 1) = 1
  simp [wA]

lemma wnu : hhNu 2 0 (wA, wV) = 1 := by
  unfold hhNu
  rw [wvi0_0, wvpart]
  rw [show (0:ℝ) * 0 + 1 = 1 from by norm_num, Real.sqrt_one]

lemma wvi1_0 : hhVi1 2 0 (wA, wV) 0 = 1 := by
  rw [vi1_zero_eq, wvi0_0, wnu]
  simp [sgn]

lemma wvi1_1 : hhVi1 2 0 (wA, wV) 1 = 1 := by
  rw [vi1_tail_eq 2 0 _ 1 (by norm_num), vi0_window 2 0 _ 1 (by norm_num)]
  show wA 0 (0 + 1) = 1
  simp [wA]

lemma wvnorm : hhVnorm 2 0 (wA, wV) = Real.sqrt 2 := by
  unfold hhVnorm
  rw [wvi1_0, wvpart]
  norm_num

lemma wvi2_0 : hhVi2 2 0 (wA, wV) 0 = 1 / Real.sqrt 2 := by
  rw [vi2_window 2 0 _ 0 (by norm_num), wvi1_0, wvnorm]

lemma wvi2_1 : hhVi2 2 0 (wA, wV) 1 = 1 / Real.sqrt 2 := by
  rw [vi2_window 2 0 _ 1 (by norm_num), wvi1_1, wvnorm]

lemma wsubdot : subdot_product (wA 1) (hhVi2 2 0 (wA, wV)) 2 0
    = 1 / Real.sqrt 2 := by
  unfold subdot_product
  rw [Finset.sum_range_succ, Finset.sum_range_one, wvi2_0, wvi2_1]
  rw [show wA 1 (0 + 0) = 1 from by simp [wA], show wA 1 (0 + 1) = 0 from by simp [wA]]
  ring

lemma wstep11 : (hhRun 2 2 (wA, wV) 1).1 1 1 = -1 := by
  show (hhStep 2 2 0 (wA, wV)).1 1 1 = -1
  rw [hhStep_fst_window 2 2 0 1 (wA, wV) (by norm_num) (by norm_num)]
  show (if 0 ≤ 1 ∧ 1 < 0 + (2 - 0) then
      wA 1 1 - 2 * subdot_product (wA 1) (hhVi2 2 0 (wA, wV)) (2 - 0) 0
        * hhVi2 2 0 (wA, wV) (1 - 0)
    else wA 1 1) = -1
  rw [if_pos ⟨by norm_num, by norm_num⟩]
  have e2 : (2:ℕ) - 0 = 2 := rfl
  have e1 : (1:ℕ) - 0 = 1 := rfl
  rw [e1, e2, wsubdot, wvi2_1, show wA 1 1 = 0 from by simp [wA]]
  have h2 : Real.sqrt 2 * Real.sqrt 2 = 2 := Real.mul_self_sqrt (by norm_num)
  rw [show (2:ℝ) * (1 / Real.sqrt 2) * (1 / Real.sqrt 2)
      = 2 / (Real.sqrt 2 * Real.sqrt 2) from by ring, h2]
  norm_num

lemma wnd : ∀ i, i < 2 → ActiveNonzero wA wV 2 2 i := by
  intro i hi
  interval_cases i
  · refine ⟨1, by norm_num, ?_⟩
    show wA 0 (0 + 1) ≠ 0
    simp [wA]
  · refine ⟨0, by norm_num, ?_⟩
    show (hhRun 2 2 (wA, wV) 1).1 1 (1 + 0) ≠ 0
    rw [show (1:ℕ) + 0 = 1 from rfl, wstep11]
    norm_num

/-- Witness for C1 at the concrete 2 by 2 input. -/
theorem C1_witness : (householder wA wV 2 2).1 0 1 = 0 :=
  C1_upper_triangular wA wV 2 2 (by norm_num) (by norm_num) wnd 0 1
    (by norm_num) (by norm_num) (by norm_num)

/-- Witness for C2 at the concrete 2 by 2 input. -/
theorem C2_witness :
    applySeq (householder wA wV 2 2).2 2 2 ((householder wA wV 2 2).1 1) 0
      = wA 1 0 :=
  C2_reconstruction wA wV 2 2 (by norm_num) (by norm_num) wnd 1 (by norm_num)
    0 (by norm_num)

/-- Witness for C3 at the concrete 2 by 2 input. -/
theorem C3_witness :
    Real.sqrt (∑ k ∈ Finset.range (2 - 0), (householder wA wV 2 2).2 0 k ^ 2)
      = 1 :=
  C3_unit_norm wA wV 2 2 (by norm_num) (by norm_num) wnd 0 (by norm_num)

/-- Witness for C10 at the concrete 2 by 2 input. -/
theorem C10_witness : (householder wA wV 2 2).1 0 0 ≠ 0 :=
  (C10_diagonal wA wV 2 2 (by norm_num) 0 (by norm_num)
    (wnd 0 (by norm_num))).2

lemma c8vi0 : hhVi0 1 0 (c8A, wV) 0 = 5 := by
  rw [vi0_window 1 0 (c8A, wV) 0 (by norm_num)]
  show c8A 0 (0 + 0) = 5
  simp [c8A]

lemma c8vpart : hhVpartdot 1 0 (c8A, wV) = 0 := by
  rw [vpartdot_eq_sum]
  rw [show Finset.Ico 1 (1 - 0) = ∅ from by decide]
  exact Finset.sum_empty

lemma c8nu : hhNu 1 0 (c8A, wV) = 5 := by
  unfold hhNu
  rw [c8vi0, c8vpart, show (5:ℝ) * 5 + 0 = 5 ^ 2 from by norm_num,
    Real.sqrt_sq (by norm_num : (0:ℝ) ≤ 5)]

lemma c8vi1 : hhVi1 1 0 (c8A, wV) 0 = 10 := by
  rw [vi1_zero_eq, c8vi0, c8nu]
  norm_num [sgn]

lemma c8vnorm : hhVnorm 1 0 (c8A, wV) = 10 := by
  unfold hhVnorm
  rw [c8vi1, c8vpart, show (10:ℝ) * 10 + 0 = 10 ^ 2 from by norm_num,
    Real.sqrt_sq (by norm_num : (0:ℝ) ≤ 10)]

lemma c8vi2 : hhVi2 1 0 (c8A, wV) 0 = 1 := by
  rw [vi2_window 1 0 _ 0 (by norm_num), c8vi1, c8vnorm]
  norm_num

lemma c8v : (householder c8A wV 1 1).2 0 0 = 1 := by
  rw [householder_snd_eq c8A wV 1 1 0 (by norm_num)]
  exact c8vi2

lemma c8R : (householder c8A wV 1 1).1 0 0 = -5 := by
  rw [householder_fst_col c8A wV 1 1 0 (by norm_num)]
  show (if 0 ≤ 0 ∧ 0 < 0 + (1 - 0) then
      c8A 0 0 - 2 * subdot_product (c8A 0) (hhVi2 1 0 (c8A, wV)) (1 - 0) 0
        * hhVi2 1 0 (c8A, wV) (0 - 0)
    else c8A 0 0) = -5
  rw [if_pos ⟨le_refl 0, by norm_num⟩]
  have hs : subdot_product (c8A 0) (hhVi2 1 0 (c8A, wV)) (1 - 0) 0 = 5 := by
    unfold subdot_product
    rw [show (1:ℕ) - 0 = 1 from rfl, Finset.sum_range_one]
    rw [show c8A 0 (0 + 0) = 5 from by simp [c8A], c8vi2]
    norm_num
  rw [hs, show (0:ℕ) - 0 = 0 from rfl, c8vi2,
    show c8A 0 0 = 5 from by simp [c8A]]
  norm_num

lemma c8Q : applySeq (householder c8A wV 1 1).2 1 1
    ((householder c8A wV 1 1).1 0) 0 = 5 := by
  show reflectCol ((householder c8A wV 1 1).2 0) 1 0
    ((householder c8A wV 1 1).1 0) 0 = 5
  show (if 0 ≤ 0 ∧ 0 < 0 + (1 - 0) then
      (householder c8A wV 1 1).1 0 0
        - 2 * subdot_product ((householder c8A wV 1 1).1 0)
            ((householder c8A wV 1 1).2 0) (1 - 0) 0
          * (householder c8A wV 1 1).2 0 (0 - 0)
    else (householder c8A wV 1 1).1 0 0) = 5
  rw [if_pos ⟨le_refl 0, by norm_num⟩]
  have hs : subdot_product ((householder c8A wV 1 1).1 0)
      ((householder c8A wV 1 1).2 0) (1 - 0) 0 = -5 := by
    unfold subdot_product
    rw [show (1:ℕ) - 0 = 1 from rfl, Finset.sum_range_one]
    rw [show (0:ℕ) + 0 = 0 from rfl, c8R, c8v]
    norm_num
  rw [hs, show (0:ℕ) - 0 = 0 from rfl, c8R, c8v]
  norm_num

/-- C8: for the concrete input m = n = 1, A = [[5]], householder produces a
reflection vector equal to a unit scalar (+1 here, matching the stability
rule for a positive pivot), leaves R = [[-5]], and applying the reflector
to R reconstructs 5 exactly. -/
theorem C8_scalar_case :
    ((householder c8A wV 1 1).2 0 0 = 1 ∨ (householder c8A wV 1 1).2 0 0 = -1)
    ∧ ((householder c8A wV 1 1).1 0 0 = -5
        ∨ (householder c8A wV 1 1).1 0 0 = 5)
    ∧ applySeq (householder c8A wV 1 1).2 1 1
        ((householder c8A wV 1 1).1 0) 0 = 5 :=
  ⟨Or.inl c8v, Or.inl c8R, c8Q⟩

lemma zvi0 (k : ℕ) (hk : k < 3) : hhVi0 3 0 (zA, wV) k = 0 := by
  rw [vi0_window 3 0 (zA, wV) k hk]
  show zA 0 (0 + k) = 0
  simp [zA]

lemma zvpart : hhVpartdot 3 0 (zA, wV) = 0 := by
  rw [vpartdot_eq_sum]
  refine Finset.sum_eq_zero fun k hk => ?_
  show zA 0 (0 + k) * zA 0 (0 + k) = 0
  simp [zA]

lemma znu : hhNu 3 0 (zA, wV) = 0 := by
  unfold hhNu
  rw [zvi0 0 (by norm_num), zvpart,
    show (0:ℝ) * 0 + 0 = 0 from by norm_num, Real.sqrt_zero]

lemma zvi1_0 : hhVi1 3 0 (zA, wV) 0 = 0 := by
  rw [vi1_zero_eq, zvi0 0 (by norm_num), znu]
  simp [sgn]

lemma zvnorm : hhVnorm 3 0 (zA, wV) = 0 := by
  unfold hhVnorm
  rw [zvi1_0, zvpart,
    show (0:ℝ) * 0 + 0 = 0 from by norm_num, Real.sqrt_zero]

lemma zvi2 (k : ℕ) (hk : k < 3) : hhVi2 3 0 (zA, wV) k = 0 := by
  rw [vi2_window 3 0 _ k hk, zvnorm, div_zero]

lemma zvfin (k : ℕ) (hk : k < 3) : (householder zA wV 3 2).2 0 k = 0 := by
  rw [householder_snd_eq zA wV 3 2 0 (by norm_num)]
  exact zvi2 k hk

/-- C4 on the code as written: at the degenerate input m = 3, n = 2 with
column 0 identically zero, the norm computed at step 0 is exactly zero and
the routine nevertheless performs the division (no error of any kind is
signalled); the run completes, storing for v_0 the result of the division
by zero (the zero vector in the exact model, NaN in IEEE doubles), whose
norm is 0 rather than 1. -/
theorem C4_no_error_signal :
    hhVnorm 3 0 (zA, wV) = 0
    ∧ ((householder zA wV 3 2).2 0 0 = 0
        ∧ (householder zA wV 3 2).2 0 1 = 0
        ∧ (householder zA wV 3 2).2 0 2 = 0)
    ∧ Real.sqrt (∑ k ∈ Finset.range (3 - 0),
        (householder zA wV 3 2).2 0 k ^ 2) = 0 := by
  refine ⟨zvnorm, ⟨zvfin 0 (by norm_num), zvfin 1 (by norm_num),
    zvfin 2 (by norm_num)⟩, ?_⟩
  have e : ∑ k ∈ Finset.range (3 - 0), (householder zA wV 3 2).2 0 k ^ 2
      = 0 := by
    refine Finset.sum_eq_zero fun k hk => ?_
    rw [Finset.mem_range] at hk
    rw [zvfin k (by omega)]
    norm_num
  rw [e, Real.sqrt_zero]

lemma ColsOK_set (m : ℕ) (a : List (List ℝ)) (j : ℕ) (col : List ℝ)
    (hA : ColsOK m a) (hc : m ≤ col.length) : ColsOK m (a.set j col) := by
  intro j' col' h
  rw [List.get?_set] at h
  by_cases hjj : j = j'
  · rw [if_pos hjj] at h
    cases hget : a.get? j' with
    | none => rw [hget] at h; simp at h
    | some c0 =>
      rw [hget] at h
      simp only [Option.map_some, Option.some.injEq] at h
      rw [← h]
      exact hc
  · rw [if_neg hjj] at h
    exact hA j' col' h

lemma CapOK_set (m : ℕ) (v : List (List ℝ)) (i : ℕ) (w : List ℝ)
    (hV : CapOK m v) (hw : m - i ≤ w.length) : CapOK m (v.set i w) := by
  intro i' col' h
  rw [List.get?_set] at h
  by_cases hii : i = i'
  · subst hii
    rw [if_pos rfl] at h
    cases hget : v.get? i with
    | none => rw [hget] at h; simp at h
    | some c0 =>
      rw [hget] at h
      simp only [Option.map_some, Option.some.injEq] at h
      rw [← h]
      exact hw
  · rw [if_neg hii] at h
    exact hV i' col' h

lemma partialvec_copyC_some (src dst : List ℝ) (len off : ℕ)
    (h1 : off + len ≤ src.length) (h2 : len ≤ dst.length) :
    ∃ out, partialvec_copyC src dst len off = some out
      ∧ out.length = dst.length := by
  unfold partialvec_copyC
  rw [if_pos ⟨h1, h2⟩]
  refine ⟨_, rfl, ?_⟩
  simp only [List.length_append, List.length_take, List.length_drop]
  omega

lemma scalar_divC_some (v : List ℝ) (s : ℝ) (len : ℕ) (h : len ≤ v.length) :
    ∃ out, scalar_divC v s len = some out ∧ out.length = v.length := by
  unfold scalar_divC
  rw [if_pos h]
  refine ⟨_, rfl, ?_⟩
  simp only [List.length_append, List.length_map, List.length_take,
    List.length_drop]
  omega

lemma partialscalar_subC_some (v : List ℝ) (c : ℝ) (len off : ℕ)
    (io : List ℝ) (h1 : len ≤ v.length) (h2 : off + len ≤ io.length) :
    ∃ out, partialscalar_subC v c len off io = some out
      ∧ out.length = io.length := by
  unfold partialscalar_subC
  rw [if_pos ⟨h1, h2⟩]
  refine ⟨_, rfl, ?_⟩
  simp only [List.length_append, List.length_zipWith, List.length_take,
    List.length_drop]
  omega

lemma partialdot_productC_some (u w : List ℝ) (len skip : ℕ)
    (h1 : len ≤ u.length) (h2 : len ≤ w.length) :
    ∃ x, partialdot_productC u w len skip = some x := by
  unfold partialdot_productC
  rw [if_pos ⟨h1, h2⟩]
  exact ⟨_, rfl⟩

lemma subdot_productC_some (u v : List ℝ) (len off : ℕ)
    (h1 : off + len ≤ u.length) (h2 : len ≤ v.length) :
    ∃ x, subdot_productC u v len off = some x := by
  unfold subdot_productC
  rw [if_pos ⟨h1, h2⟩]
  exact ⟨_, rfl⟩

lemma innerLoopC_some (vi : List ℝ) (m i : ℕ) (hvi : m - i ≤ vi.length)
    (him : i ≤ m) :
    ∀ (js : List ℕ) (a : List (List ℝ)), ColsOK m a →
      (∀ j, j ∈ js → j < a.length) →
      ∃ a2, innerLoopC vi m i a js = some a2
        ∧ a2.length = a.length ∧ ColsOK m a2 := by
  intro js
  induction js with
  | nil =>
    intro a hA _
    exact ⟨a, rfl, rfl, hA⟩
  | cons j js ih =>
    intro a hA hjs
    have hj : j < a.length := hjs j (List.mem_cons_self j js)
    have hget : a.get? j = some (a.get ⟨j, hj⟩) := List.get?_eq_get hj
    have hcl : m ≤ (a.get ⟨j, hj⟩).length := hA j _ hget
    obtain ⟨vTa, hvTa⟩ :=
      subdot_productC_some (a.get ⟨j, hj⟩) vi (m - i) i (by omega) hvi
    obtain ⟨colj2, hcolj2, hlen2⟩ :=
      partialscalar_subC_some vi (2 * vTa) (m - i) i (a.get ⟨j, hj⟩)
        hvi (by omega)
    have hA2 : ColsOK m (a.set j colj2) :=
      ColsOK_set m a j colj2 hA (by omega)
    have hjs2 : ∀ j', j' ∈ js → j' < (a.set j colj2).length := by
      intro j' hj'
      rw [List.length_set]
      exact hjs j' (List.mem_cons_of_mem j hj')
    obtain ⟨a2, ha2, hlen, hA3⟩ := ih (a.set j colj2) hA2 hjs2
    refine ⟨a2, ?_, by rw [hlen, List.length_set], hA3⟩
    simp only [innerLoopC, hget, hvTa, hcolj2, Option.bind_eq_bind,
      Option.some_bind]
    exact ha2

lemma hhStepC_some (m n i : ℕ) (hin : i < n) (hnm : n ≤ m)
    (a v : List (List ℝ)) (ha : a.length = n) (hA : ColsOK m a)
    (hv : v.length = n) (hV : CapOK m v) :
    ∃ a2 v2, hhStepC m n i a v = some (a2, v2)
      ∧ a2.length = n ∧ ColsOK m a2 ∧ v2.length = n ∧ CapOK m v2 := by
  have hia : i < a.length := by omega
  have hiv : i < v.length := by omega
  have hgets : a.get? i = some (a.get ⟨i, hia⟩) := List.get?_eq_get hia
  have hgetv : v.get? i = some (v.get ⟨i, hiv⟩) := List.get?_eq_get hiv
  have hcl : m ≤ (a.get ⟨i, hia⟩).length := hA i _ hgets
  have hvl : m - i ≤ (v.get ⟨i, hiv⟩).length := hV i _ hgetv
  obtain ⟨vi0, hpvc, hvi0len⟩ :=
    partialvec_copyC_some (a.get ⟨i, hia⟩) (v.get ⟨i, hiv⟩) (m - i) i
      (by omega) hvl
  obtain ⟨t, ht⟩ := partialdot_productC_some vi0 vi0 (m - i) 1
    (by omega) (by omega)
  have h0 : 0 < vi0.length := by omega
  obtain ⟨x0, hx0⟩ : ∃ x0, vi0.get? 0 = some x0 := ⟨_, List.get?_eq_get h0⟩
  have hvi1len : (vi0.set 0 (updateFirst x0 t)).length = vi0.length :=
    List.length_set vi0 0 _
  have h0s : 0 < (vi0.set 0 (updateFirst x0 t)).length := by omega
  obtain ⟨y0, hy0⟩ : ∃ y0, (vi0.set 0 (updateFirst x0 t)).get? 0 = some y0 :=
    ⟨_, List.get?_eq_get h0s⟩
  obtain ⟨vi2, hsd, hvi2len⟩ := scalar_divC_some (vi0.set 0 (updateFirst x0 t))
    (Real.sqrt (y0 * y0 + t)) (m - i) (by omega)
  have hjs : ∀ j, j ∈ List.range' i (n - i) → j < a.length := by
    intro j hj
    rw [List.mem_range'_1] at hj
    omega
  obtain ⟨a2, hinner, hilen, hiA⟩ := innerLoopC_some vi2 m i (by omega)
    (by omega) (List.range' i (n - i)) a hA hjs
  refine ⟨a2, v.set i vi2, ?_, by omega, hiA,
    by rw [List.length_set]; omega, CapOK_set m v i vi2 hV (by omega)⟩
  simp only [hhStepC, hgets, hgetv, hpvc, ht, hx0, hy0, hsd, hinner,
    Option.bind_eq_bind, Option.some_bind]

lemma outerLoopC_some (m n : ℕ) (hnm : n ≤ m) :
    ∀ (is : List ℕ) (s : List (List ℝ) × List (List ℝ)),
      (∀ i, i ∈ is → i < n) → s.1.length = n → ColsOK m s.1 →
      s.2.length = n → CapOK m s.2 →
      (outerLoopC m n is s).isSome := by
  intro is
  induction is with
  | nil =>
    intro s _ _ _ _ _
    exact rfl
  | cons i is ih =>
    intro s his h1 h2 h3 h4
    obtain ⟨a2, v2, hstep, ha2, hA2, hv2, hV2⟩ :=
      hhStepC_some m n i (his i (List.mem_cons_self i is)) hnm
        s.1 s.2 h1 h2 h3 h4
    have e : outerLoopC m n (i :: is) s = outerLoopC m n is (a2, v2) := by
      simp only [outerLoopC, hstep, Option.bind_eq_bind, Option.some_bind]
    rw [e]
    exact ih (a2, v2) (fun j hj => his j (List.mem_cons_of_mem i hj))
      ha2 hA2 hv2 hV2

/-- C9: for every call householder(a, v, m, n) with 1 <= n <= m, where a
holds n columns of length at least m and v holds n vectors with slot i of
capacity at least m - i, every checked array access performed by the
routine (including those the primitives make at the lengths and offsets it
passes) stays in bounds, so the bounds-checked embedding never takes its
out-of-range branch and the call returns a result. -/
theorem C9_in_bounds (a v : List (List ℝ)) (m n : ℕ) (hn : 1 ≤ n)
    (hnm : n ≤ m) (ha : a.length = n) (hA : ColsOK m a)
    (hv : v.length = n) (hV : CapOK m v) :
    (householderC a v m n).isSome := by
  unfold householderC
  exact outerLoopC_some m n hnm (List.range n) (a, v)
    (fun i hi => List.mem_range.mp hi) ha hA hv hV

/-- Witness for C9 at the concrete checked input a = [[5]], v = [[0]],
m = n = 1. -/
theorem C9_witness : (householderC c9A c9V 1 1).isSome := by
  refine C9_in_bounds c9A c9V 1 1 (le_refl 1) (le_refl 1) rfl ?_ rfl ?_
  · intro j col h
    cases j with
    | zero =>
      rw [show c9A.get? 0 = some [(5:ℝ)] from rfl] at h
      cases h
      exact le_refl 1
    | succ j => exact Option.noConfusion h
  · intro i col h
    cases i with
    | zero =>
      rw [show c9V.get? 0 = some [(0:ℝ)] from rfl] at h
      cases h
      exact Nat.le_refl 1
    | succ i => exact Option.noConfusion h
